import Mathlib

/-!
Verification of the layer-composition module `lingvo/core/builder_layers.py`.

Shallow embedding conventions:
* Shape descriptors (`tshape.Shape`) are lists of dimension sizes.
* A sub-module's `FPropMeta` is a function from input shape descriptors to a
  pair (flops, output shape descriptors).
* Tensors are finite rose trees of rational scalars (enough to express the
  leading-axis weighted sums that `SoftCondLayer` performs with
  `tf.einsum` and the stacking of parameter copies).
* Python assertion failures / raised exceptions are `none` in `Option`.
* Python strings are `List Char`; `str.split` / `str.strip` are embedded as
  structurally recursive functions on character lists.
-/

namespace LingvoBuilder

/-- Shape descriptor: the list of dimension sizes of a tensor
(models `tshape.Shape`). -/
abbrev Shape := List Nat

/-- A possibly-absent shape descriptor (a `None` entry of an
`out_shapes` tuple). -/
abbrev OShape := Option Shape

/-- A sub-module's shape/cost inference function (`FPropMeta`): maps the input
shape descriptors to the pair (flops, output shape descriptors). -/
abbrev MetaF := List Shape → Nat × List Shape

/-- A sub-module's shape/cost inference function over possibly-absent shapes,
as consumed by `ParallelRepeatLayer.FPropMeta`. -/
abbrev OMetaF := List OShape → Nat × List OShape

/-- One pass of the inner loop of `SequentialLayer.FPropMeta`
(builder_layers.py lines 428-435): for each sub-module, run its `FPropMeta`
on the current shape tuple, add its flops to the running total and replace
the shape tuple by its `out_shapes`. -/
def seqInner : List MetaF → Nat × List Shape → Nat × List Shape
  | [], acc => acc
  | f :: fs, acc =>
    let m := f acc.2
    seqInner fs (acc.1 + m.1, m.2)

/-- The outer `for _ in range(p.repeat)` loop of `SequentialLayer.FPropMeta`:
runs `seqInner` on the whole sub-module list `rep` times. -/
def seqLoop : Nat → List MetaF → Nat × List Shape → Nat × List Shape
  | 0, _, acc => acc
  | n + 1, subs, acc => seqLoop n subs (seqInner subs acc)

/-- Embeds `SequentialLayer.FPropMeta` (builder_layers.py lines 424-436): starts from
total flops 0 and the given input shape descriptors. -/
def SequentialFPropMeta (rep : Nat) (subs : List MetaF) (args : List Shape) :
    Nat × List Shape :=
  seqLoop rep subs (0, args)

/-- Manual threading of shape descriptors through a chain of sub-modules in
order (the specification's description of `Sequential`). -/
def threadOut : List MetaF → List Shape → List Shape
  | [], as0 => as0
  | f :: fs, as0 => threadOut fs (f as0).2

/-- The list of per-sub-module reported costs along a manual threading of the
chain: each sub-module's `FPropMeta` flops at the shapes it receives. -/
def costList : List MetaF → List Shape → List Nat
  | [], _ => []
  | f :: fs, as0 => (f as0).1 :: costList fs (f as0).2

/-- The declared sub-module list repeated `rep` times, in declaration order
(the chain `Sequential` threads through). -/
def chainOf (rep : Nat) (subs : List MetaF) : List MetaF :=
  (List.replicate rep subs).flatten

theorem seqInner_eq (fs : List MetaF) : ∀ acc : Nat × List Shape,
    seqInner fs acc = (acc.1 + (costList fs acc.2).sum, threadOut fs acc.2) := by
  induction fs with
  | nil => intro acc; simp [seqInner, costList, threadOut]
  | cons f fs ih =>
    intro acc
    simp [seqInner, costList, threadOut, ih, Nat.add_assoc]

theorem threadOut_append (xs ys : List MetaF) : ∀ as0 : List Shape,
    threadOut (xs ++ ys) as0 = threadOut ys (threadOut xs as0) := by
  induction xs with
  | nil => intro as0; simp [threadOut]
  | cons f fs ih => intro as0; simp [threadOut, ih]

theorem costList_append (xs ys : List MetaF) : ∀ as0 : List Shape,
    costList (xs ++ ys) as0
      = costList xs as0 ++ costList ys (threadOut xs as0) := by
  induction xs with
  | nil => intro as0; simp [costList, threadOut]
  | cons f fs ih => intro as0; simp [costList, threadOut, ih]

theorem seqLoop_eq (subs : List MetaF) : ∀ (n : Nat) (acc : Nat × List Shape),
    seqLoop n subs acc
      = (acc.1 + (costList (chainOf n subs) acc.2).sum,
         threadOut (chainOf n subs) acc.2) := by
  intro n
  induction n with
  | zero => intro acc; simp [seqLoop, chainOf, costList, threadOut]
  | succ n ih =>
    intro acc
    have hchain : chainOf (n + 1) subs = subs ++ chainOf n subs := by
      simp [chainOf, List.replicate_succ]
    rw [seqLoop, ih, seqInner_eq, hchain, costList_append, threadOut_append]
    simp [Nat.add_assoc]

/-- C2: for every `Sequential` configuration (any repeat count, any sub-module
list), the cost computed by `SequentialLayer.FPropMeta` equals the sum of each
sub-module's reported cost along the chain over all repetitions, and the
output shape tuple equals the result of manually threading the input shape
descriptors through the sub-modules in declaration order, `rep` times. -/
theorem sequential_meta_cost_and_shapes (rep : Nat) (subs : List MetaF)
    (args : List Shape) :
    SequentialFPropMeta rep subs args
      = ((costList (chainOf rep subs) args).sum,
         threadOut (chainOf rep subs) args) := by
  unfold SequentialFPropMeta
  rw [seqLoop_eq]
  simp

/-- Embeds `RepeatLayer.FPropMeta` (builder_layers.py lines 186-192): runs the body's
meta once on the input shapes, multiplies its flops by `p.repeat`, and reports
the input shapes unchanged as output shapes. -/
def RepeatFPropMeta (rep : Nat) (body : MetaF) (args : List Shape) :
    Nat × List Shape :=
  ((body args).1 * rep, args)

/-- Embeds `ParallelRepeatLayer.FPropMeta` (builder_layers.py lines 356-370): strips
the leading (repetition) dimension from each non-`None` input shape, runs the
body's meta on the single-instance shapes, multiplies its flops by `p.repeat`,
and prepends the repetition dimension to each non-`None` output shape. -/
def ParallelRepeatFPropMeta (rep : Nat) (body : OMetaF) (args : List OShape) :
    Nat × List OShape :=
  let inputShapes := args.map (Option.map List.tail)
  let m := body inputShapes
  (m.1 * rep, m.2.map (Option.map (fun s => rep :: s)))

/-- C3: for both `Repeat` and `ParallelRepeat` with any repeat count `n > 0`,
the cost reported by `FPropMeta` equals the body's single-instance inferred
cost multiplied by `n` (for `ParallelRepeat` the single instance is the body
meta evaluated on the inputs with their leading repetition axis stripped). -/
theorem repeat_meta_cost_multiplies (n : Nat) (body : MetaF) (args : List Shape)
    (obody : OMetaF) (oargs : List OShape) (h : 0 < n) :
    (RepeatFPropMeta n body args).1 = n * (body args).1
  ∧ (ParallelRepeatFPropMeta n obody oargs).1
      = n * (obody (oargs.map (Option.map List.tail))).1 := by
  refine ⟨?_, ?_⟩ <;> simp [RepeatFPropMeta, ParallelRepeatFPropMeta, Nat.mul_comm]

/-- Witness for C3 at a concrete repeat count and body meta. -/
theorem repeat_meta_cost_multiplies_witness :
    (RepeatFPropMeta 3 (fun as0 => (7, as0)) [[2, 3]]).1 = 3 * 7
  ∧ (ParallelRepeatFPropMeta 3 (fun _ => (7, [])) [some [3, 4]]).1 = 3 * 7 := by
  have h := repeat_meta_cost_multiplies 3 (fun as0 => (7, as0)) [[2, 3]]
    (fun _ => (7, [])) [some [3, 4]] (by decide)
  exact ⟨h.1, h.2⟩

/-- A tensor value: a rose tree of rational scalars. A stacked parameter with
a leading axis of size `n` is a `v` node with `n` children. -/
inductive T where
  | s (x : ℚ)
  | v (ts : List T)

/-- The result of a layer's `FProp`: Python returns either a bare value
(`one`) or a tuple of values (`many`). -/
inductive FOut (α : Type) where
  | one (t : α)
  | many (ts : List α)
deriving DecidableEq

/-- Embeds `_ToTuple` / the output tuple of an `FProp` result: a bare value becomes a
one-element tuple. -/
def foutList {α : Type} : FOut α → List α
  | .one t => [t]
  | .many ts => ts

/-- A Python list comprehension / loop that fails (raises) on the first
element where `f` fails: `some` of the mapped list iff every element maps. -/
def mapOption {α β : Type} (f : α → Option β) : List α → Option (List β)
  | [] => some []
  | a :: l =>
    match f a with
    | none => none
    | some b => (mapOption f l).map (b :: ·)

theorem mapOption_none {α β : Type} (f : α → Option β) :
    ∀ (l : List α) (a : α), a ∈ l → f a = none → mapOption f l = none := by
  intro l
  induction l with
  | nil => intro a h; cases h
  | cons b l ih =>
    intro a hmem hfa
    rcases List.mem_cons.mp hmem with h | h
    · subst h; simp [mapOption, hfa]
    · cases hb : f b with
      | none => simp [mapOption, hb]
      | some y => simp [mapOption, hb, ih a h hfa]

/-- Embeds `FirstNLayer.__init__` (builder_layers.py lines 43-48): asserts a
non-empty name and `p.n > 0`. -/
def FirstNInit (name : List Char) (n : Int) : Option Unit :=
  if name ≠ [] ∧ 0 < n then some () else none

/-- Embeds `FirstNLayer.FProp` (builder_layers.py lines 50-54): asserts
`len(args) >= p.n`, then returns the tuple `args[:n]` if `n > 1`, else the
bare first argument (`args[0]`, failing on an empty tuple). -/
def FirstNFProp (n : Int) (args : List T) : Option (FOut T) :=
  if n ≤ (args.length : Int) then
    if 1 < n then some (.many (args.take n.toNat))
    else args.head?.map .one
  else none

/-- Embeds `FirstNLayer.FPropMeta` (builder_layers.py lines 56-63): mirrors the
selection on shape descriptors with zero flops; note it performs no length
assertion, so only the `n = 1` case can fail (on an empty tuple). -/
def FirstNFPropMeta (n : Int) (args : List Shape) : Option (Nat × List Shape) :=
  if 1 < n then some (0, args.take n.toNat)
  else args.head?.map (fun s => (0, [s]))

/-- C8: `FirstN(n)` fails at construction when `n ≤ 0`; its `FProp` fails when
fewer than `n` inputs are supplied; with at least `n` inputs it returns
exactly the first `n` inputs in order, as a bare value precisely when `n = 1`
and as a tuple otherwise; and `FPropMeta` performs the same selection on shape
descriptors. -/
theorem firstn_selects (n : Int) (name : List Char) (args : List T)
    (shapes : List Shape) :
    (n ≤ 0 → FirstNInit name n = none)
  ∧ ((args.length : Int) < n → FirstNFProp n args = none)
  ∧ (0 < n → n ≤ (args.length : Int) →
      ∃ out, FirstNFProp n args = some out
        ∧ foutList out = args.take n.toNat
        ∧ ((∃ t, out = .one t) ↔ n = 1))
  ∧ (0 < n → n ≤ (shapes.length : Int) →
      FirstNFPropMeta n shapes = some (0, shapes.take n.toNat)) := by
  refine ⟨?_, ?_, ?_, ?_⟩
  · intro hn
    simp only [FirstNInit, ite_eq_right_iff]
    intro ⟨_, hpos⟩
    omega
  · intro hlt
    simp only [FirstNFProp, if_neg (by omega : ¬ n ≤ (args.length : Int))]
  · intro hpos hle
    by_cases h1 : 1 < n
    · refine ⟨.many (args.take n.toNat), ?_, rfl, ?_⟩
      · simp [FirstNFProp, if_pos hle, if_pos h1]
      · constructor
        · rintro ⟨t, ht⟩; cases ht
        · intro h; omega
    · have hn1 : n = 1 := by omega
      subst hn1
      cases args with
      | nil => simp at hle
      | cons a l =>
        refine ⟨.one a, ?_, ?_, ?_⟩
        · simp [FirstNFProp]
        · simp [foutList]
        · simp
  · intro hpos hle
    by_cases h1 : 1 < n
    · simp [FirstNFPropMeta, if_pos h1]
    · have hn1 : n = 1 := by omega
      subst hn1
      cases shapes with
      | nil => simp at hle
      | cons s l =>
        simp [FirstNFPropMeta]

/-- Witness for C8 at concrete inputs: `n = 2` on three inputs, and the
failing cases `n = 0` (construction) and two required inputs against one
supplied (call time). -/
theorem firstn_selects_witness :
    FirstNInit ['f'] 0 = none
  ∧ FirstNFProp 2 [T.s 1] = none
  ∧ (∃ out, FirstNFProp 2 [T.s 1, T.s 2, T.s 3] = some out
      ∧ foutList out = [T.s 1, T.s 2]
      ∧ ((∃ t, out = .one t) ↔ (2 : Int) = 1))
  ∧ FirstNFPropMeta 2 [[4, 5], [6], [7]] = some (0, [[4, 5], [6]]) := by
  refine ⟨?_, ?_, ?_, ?_⟩
  · exact (firstn_selects 0 ['f'] [] []).1 (by decide)
  · exact (firstn_selects 2 ['f'] [T.s 1] []).2.1 (by decide)
  · exact (firstn_selects 2 ['f'] [T.s 1, T.s 2, T.s 3] []).2.2.1
      (by decide) (by decide)
  · exact (firstn_selects 2 ['f'] [] [[4, 5], [6], [7]]).2.2.2
      (by decide) (by decide)

/-- The per-index precondition check of `ArgIndexLayer.FProp`
(builder_layers.py lines 86-87): `assert 0 <= i <= len(args)` for every
configured index.  Note the upper bound is `<=`, not `<`. -/
def ArgIndexCheck (idx : List Int) (numArgs : Nat) : Bool :=
  idx.all (fun i => 0 ≤ i && i ≤ (numArgs : Int))

/-- Embeds `ArgIndexLayer.FProp` (builder_layers.py lines 82-89): asserts `p.idx` is
non-empty and every index passes `ArgIndexCheck`, then selects
`[args[i] for i in p.idx]` (an out-of-range index raises `IndexError`,
i.e. `none`), returning a tuple if more than one index and a bare value
otherwise. -/
def ArgIndexFProp (idx : List Int) (args : List T) : Option (FOut T) :=
  if idx = [] then none
  else if ArgIndexCheck idx args.length then
    match mapOption (fun i => args.get? i.toNat) idx with
    | none => none
    | some [] => none
    | some [t] => some (.one t)
    | some ts => some (.many ts)
  else none

/-- C9 (code bug): the precondition check of `ArgIndexLayer.FProp` accepts the
index `i = len(args)` — here `idx = [1]` with a single input — even though the
subsequent selection `args[i]` is out of bounds and fails.  The claim (and the
spec's «requires each index in range») says such a call is rejected by the
precondition; the code's `assert 0 <= i <= len(args)` is an off-by-one and
lets it through, so the call dies at `args[i]` instead. -/
theorem argindex_check_off_by_one :
    ArgIndexCheck [(1 : Int)] 1 = true
  ∧ ([T.s 0].get? (Int.toNat 1) = none)
  ∧ ArgIndexFProp [(1 : Int)] [T.s 0] = none := by
  refine ⟨rfl, rfl, rfl⟩

/-- Embeds `BatchParallelLayer.FProp` (builder_layers.py lines 905-939): when the
cluster reports one device per split (`num == 1`) it calls the wrapped
sub-layer's `FProp` directly; otherwise it splits the inputs along the batch
axis into `num` shards, runs the sub-layer per shard, and concatenates.
`SplitRecursively` / `ConcatRecursively` live outside this module and are
abstract parameters. -/
def BatchParallelFProp {Th R : Type} (num : Nat)
    (splitRec : List T → Nat → List (List T))
    (concatRec : List R → R)
    (subF : Th → List T → R) (theta : Th) (args : List T) : R :=
  if num = 1 then subF theta args
  else concatRec ((splitRec args num).map (fun xs => subF theta xs))

/-- C7: with a worker count of 1, `BatchParallel` returns exactly the wrapped
module's direct output; the result does not depend on the split or concat
functions at all, so no splitting or concatenation affects it. -/
theorem batch_parallel_single_worker_direct {Th R : Type} (num : Nat)
    (splitRec : List T → Nat → List (List T)) (concatRec : List R → R)
    (subF : Th → List T → R) (theta : Th) (args : List T) (h : num = 1) :
    BatchParallelFProp num splitRec concatRec subF theta args
      = subF theta args := by
  subst h
  simp [BatchParallelFProp]

/-- Witness for C7 at a concrete wrapped module (sum of scalar leaves ignoring
structure) and concrete split/concat functions. -/
theorem batch_parallel_single_worker_direct_witness :
    BatchParallelFProp 1 (fun xs _ => [xs, xs]) (fun rs => rs.length)
      (fun (_ : Unit) xs => xs.length) () [T.s 1, T.s 2]
      = (fun (_ : Unit) (xs : List T) => xs.length) () [T.s 1, T.s 2] :=
  batch_parallel_single_worker_direct 1 (fun xs _ => [xs, xs])
    (fun rs => rs.length) (fun (_ : Unit) xs => xs.length) () [T.s 1, T.s 2]
    rfl

mutual
/-- Scalar multiplication of a tensor, elementwise. -/
def T.smul (c : ℚ) : T → T
  | .s x => .s (c * x)
  | .v ts => .v (T.smulL c ts)
/-- Scalar multiplication mapped over a list of tensors. -/
def T.smulL (c : ℚ) : List T → List T
  | [] => []
  | t :: ts => T.smul c t :: T.smulL c ts
end

mutual
/-- Elementwise addition of two tensors of equal structure (the stacked
parameter slices blended by `SoftCondLayer` all share one shape; mismatched
structures return the left operand, a case the blending never reaches). -/
def T.add : T → T → T
  | .s a, .s b => .s (a + b)
  | .v xs, .v ys => .v (T.addL xs ys)
  | x, _ => x
/-- Elementwise addition zipped over lists of tensors. -/
def T.addL : List T → List T → List T
  | [], _ => []
  | _ :: _, [] => []
  | x :: xs, y :: ys => T.add x y :: T.addL xs ys
end

/-- The weighted sum `Σᵢ cᵢ • tᵢ` over matched-length non-empty lists;
fails (as `tf.einsum` would) when the lengths disagree or the lists are
empty. -/
def scaleSum : List ℚ → List T → Option T
  | [c], [t] => some (T.smul c t)
  | c :: cs, t :: ts =>
    match scaleSum cs ts with
    | none => none
    | some r => some (T.add (T.smul c t) r)
  | _, _ => none

/-- Embeds `tf.einsum('i,i...->...', expert_dist, value)` (builder_layers.py line
268): collapses the leading expert axis of a stacked value to the weighted
sum of its slices using the gate weights; fails on a value with no leading
axis. -/
def einsumBlend (dist : List ℚ) : T → Option T
  | .v ts => scaleSum dist ts
  | .s _ => none

/-- The per-leaf body of the `SoftCondLayer.FProp` loop (builder_layers.py
lines 265-269): a leaf whose key is in the body's registered variable set and
whose value is not `None` is replaced by the expert-weighted sum over its
leading axis; every other leaf passes through unchanged. -/
def softCondValue (dist : List ℚ) (varSet : List (List Char))
    (k : List Char) (val : Option T) : Option (Option T) :=
  if k ∈ varSet then
    match val with
    | some t => (einsumBlend dist t).map some
    | none => some val
  else some val

/-- The `values` list accumulated by the `SoftCondLayer.FProp` loop over the
flattened items of `theta.body`. -/
def softCondValues (dist : List ℚ) (varSet : List (List Char)) :
    List (List Char × Option T) → Option (List (Option T))
  | [] => some []
  | (k, val) :: rest =>
    match softCondValue dist varSet k val with
    | none => none
    | some w => (softCondValues dist varSet rest).map (w :: ·)

/-- Embeds `theta.body.Pack(values)` (builder_layers.py line 270): reassembles the
parameter tree, pairing each original key with the corresponding computed
value. -/
def packTheta (thetaBody : List (List Char × Option T))
    (values : List (Option T)) : List (List Char × Option T) :=
  List.zipWith (fun kv w => (kv.1, w)) thetaBody values

/-- Embeds `SoftCondLayer.FProp` (builder_layers.py lines 255-271), with the gate
weight vector `dist` — the output of `_GetExpertDist`, a real-valued sigmoid
gate computed outside this module's data model — taken as a parameter: blend
the flattened `theta.body` leaves, repack, and invoke the body's `FProp`
exactly once on the blended tree. -/
def softCondFProp {R : Type} (dist : List ℚ) (varSet : List (List Char))
    (thetaBody : List (List Char × Option T))
    (bodyF : List (List Char × Option T) → List T → R) (inputs : List T) :
    Option R :=
  match softCondValues dist varSet thetaBody with
  | none => none
  | some values => some (bodyF (packTheta thetaBody values) inputs)

/-- The specification's per-leaf description of the blend: a registered
non-`None` variable leaf becomes the weighted sum over the leading expert
axis, every other leaf is unchanged. -/
def blendLeaf (dist : List ℚ) (varSet : List (List Char))
    (kv : List Char × Option T) : Option (List Char × Option T) :=
  if kv.1 ∈ varSet then
    match kv.2 with
    | some t => (einsumBlend dist t).map (fun b => (kv.1, some b))
    | none => some kv
  else some kv

theorem blendLeaf_eq (dist : List ℚ) (varSet : List (List Char))
    (k : List Char) (val : Option T) :
    blendLeaf dist varSet (k, val)
      = (softCondValue dist varSet k val).map (fun w => (k, w)) := by
  by_cases hmem : k ∈ varSet
  · cases val with
    | none => simp [blendLeaf, softCondValue, hmem]
    | some t =>
      cases hb : einsumBlend dist t with
      | none => simp [blendLeaf, softCondValue, hmem, hb]
      | some b => simp [blendLeaf, softCondValue, hmem, hb]
  · simp [blendLeaf, softCondValue, hmem]

theorem softCondValues_eq_mapOption (dist : List ℚ) (varSet : List (List Char)) :
    ∀ thetaBody : List (List Char × Option T),
    mapOption (blendLeaf dist varSet) thetaBody
      = (softCondValues dist varSet thetaBody).map (packTheta thetaBody) := by
  intro thetaBody
  induction thetaBody with
  | nil => simp [mapOption, softCondValues, packTheta]
  | cons kv rest ih =>
    obtain ⟨k, val⟩ := kv
    cases hv : softCondValue dist varSet k val with
    | none => simp [mapOption, softCondValues, blendLeaf_eq, hv]
    | some w =>
      cases hr : softCondValues dist varSet rest with
      | none => simp [mapOption, softCondValues, blendLeaf_eq, hv, hr, ih]
      | some ws =>
        simp [mapOption, softCondValues, blendLeaf_eq, hv, hr, ih, packTheta]

/-- C4: `SoftCondLayer.FProp` equals the per-leaf map that replaces every
registered, non-`None` variable leaf by its gate-weighted sum over the
leading expert axis, leaves every other leaf unchanged, and then applies the
body's forward exactly once to the blended tree (the entire result is a
single application of the abstract `bodyF`). -/
theorem softcond_blends_vars_and_calls_body_once {R : Type} (dist : List ℚ)
    (varSet : List (List Char)) (thetaBody : List (List Char × Option T))
    (bodyF : List (List Char × Option T) → List T → R) (inputs : List T) :
    softCondFProp dist varSet thetaBody bodyF inputs
      = (mapOption (blendLeaf dist varSet) thetaBody).map
          (fun w => bodyF w inputs) := by
  rw [softCondValues_eq_mapOption]
  cases hv : softCondValues dist varSet thetaBody with
  | none => simp [softCondFProp, hv]
  | some values => simp [softCondFProp, hv]

theorem packTheta_map (g : List Char × Option T → Option T) :
    ∀ tb : List (List Char × Option T),
    packTheta tb (tb.map g) = tb.map (fun kv => (kv.1, g kv)) := by
  intro tb
  induction tb with
  | nil => rfl
  | cons kv rest ih =>
    simp only [List.map_cons]
    show (kv.1, g kv) :: packTheta rest (rest.map g) = _
    rw [ih]

/-- Extract the single slice of a parameter stacked with a leading axis of
length one. -/
def unstack1 : T → T
  | .v [u] => u
  | .s x => .s x
  | .v [] => .v []
  | .v (u :: u2 :: us) => .v (u :: u2 :: us)

/-- A concrete body forward: returns the scalar held in its single parameter
leaf (and ignores the inputs). -/
def exBody (w : List (List Char × Option T)) (_inputs : List T) : ℚ :=
  match w with
  | [(_, some (T.s x))] => x
  | _ => 0

/-- C6 (counterexample): with `num_experts = 1` the single gate weight is
`sigmoid(z)`, which is `1/2` exactly when the conditioning projection `z` is
zero (e.g. a zero mixing matrix) and is never `1`.  With gate weight `1/2`, a
body parameter stacked as one expert copy holding the scalar `2` is blended
to `1/2 • 2 = 1`, so `SoftCond`'s output differs from calling the body
directly with its single unstacked parameter copy — refuting the claim that
they are identical for every body, parameter tree and input. -/
theorem softcond_single_expert_counterexample :
    softCondFProp [(1 : ℚ)/2] [['w']] [(['w'], some (T.v [T.s 2]))] exBody []
      ≠ some (exBody [(['w'], some (T.s 2))] []) := by
  have h1 : softCondFProp [(1 : ℚ)/2] [['w']] [(['w'], some (T.v [T.s 2]))]
      exBody [] = some ((1 : ℚ)/2 * 2) := rfl
  have h2 : exBody [(['w'], some (T.s 2))] [] = 2 := rfl
  rw [h1, h2]
  intro hc
  have hq := Option.some.inj hc
  norm_num at hq

/-- C6 (amended): with `num_experts = 1` — every registered variable leaf
stacked with a leading axis of length one — `SoftCondLayer.FProp` invokes the
body exactly once with each registered non-`None` leaf replaced by its single
unstacked copy scaled by the gate weight `g` (so it coincides with the direct
call only when the scaling is trivial, e.g. `g = 1`, a value the sigmoid gate
never attains). -/
theorem softcond_single_expert_scales {R : Type} (g : ℚ)
    (varSet : List (List Char)) (thetaBody : List (List Char × Option T))
    (bodyF : List (List Char × Option T) → List T → R) (inputs : List T)
    (h : ∀ kv ∈ thetaBody, kv.1 ∈ varSet → ∀ t, kv.2 = some t →
          ∃ u, t = T.v [u]) :
    softCondFProp [g] varSet thetaBody bodyF inputs
      = some (bodyF (thetaBody.map (fun kv =>
          if kv.1 ∈ varSet then (kv.1, kv.2.map (fun t => T.smul g (unstack1 t)))
          else kv)) inputs) := by
  have key : ∀ tb, (∀ kv ∈ tb, kv.1 ∈ varSet → ∀ t, kv.2 = some t →
        ∃ u, t = T.v [u]) →
      softCondValues [g] varSet tb
        = some (tb.map (fun kv =>
            if kv.1 ∈ varSet then kv.2.map (fun t => T.smul g (unstack1 t))
            else kv.2)) := by
    intro tb htb
    induction tb with
    | nil => simp [softCondValues]
    | cons kv rest ih =>
      obtain ⟨k, val⟩ := kv
      have hrest := ih (fun kv hkv => htb kv (List.mem_cons_of_mem _ hkv))
      by_cases hmem : k ∈ varSet
      · cases val with
        | none => simp [softCondValues, softCondValue, hmem, hrest]
        | some t =>
          obtain ⟨u, hu⟩ := htb (k, some t) (List.mem_cons_self _ _) hmem t rfl
          subst hu
          simp [softCondValues, softCondValue, hmem, hrest, einsumBlend,
            scaleSum, unstack1]
      · simp [softCondValues, softCondValue, hmem, hrest]
  unfold softCondFProp
  rw [key thetaBody h]
  simp only [packTheta_map, Option.some.injEq]
  congr 1
  have hfun : (fun kv : List Char × Option T =>
        (kv.1, if kv.1 ∈ varSet then
                  Option.map (fun t => T.smul g (unstack1 t)) kv.2
                else kv.2))
      = (fun kv : List Char × Option T =>
        if kv.1 ∈ varSet then
          (kv.1, Option.map (fun t => T.smul g (unstack1 t)) kv.2)
        else kv) := by
    funext kv
    by_cases hmem : kv.1 ∈ varSet <;> simp [hmem]
  rw [hfun]

/-- Witness for the amended C6 at a concrete single-expert configuration:
one registered leaf stacking the scalar `2`, gate weight `1/2`. -/
theorem softcond_single_expert_scales_witness :
    softCondFProp [(1 : ℚ)/2] [['w']] [(['w'], some (T.v [T.s 2]))]
        (fun w _ => w) []
      = some [(['w'], some (T.smul ((1 : ℚ)/2) (unstack1 (T.v [T.s 2]))))] := by
  have := softcond_single_expert_scales ((1 : ℚ)/2) [['w']]
    [(['w'], some (T.v [T.s 2]))] (fun w _ => w) []
    (by
      intro kv hkv hmem t ht
      rcases List.mem_singleton.mp hkv with rfl
      cases ht
      exact ⟨T.s 2, rfl⟩)
  simpa using this

/-- A Python string, embedded as its character list. -/
abbrev Str := List Char

/-- Python `s.split(sep)` for a single-character separator. -/
def splitOnChar (sep : Char) : Str → List Str
  | [] => [[]]
  | c :: cs =>
    if c = sep then [] :: splitOnChar sep cs
    else
      match splitOnChar sep cs with
      | h :: t => (c :: h) :: t
      | [] => [[c]]

/-- Python `s.split('->')`: split on the two-character separator `->`,
left to right, non-overlapping. -/
def splitArrow : Str → List Str
  | [] => [[]]
  | '-' :: '>' :: cs => [] :: splitArrow cs
  | c :: cs =>
    match splitArrow cs with
    | h :: t => (c :: h) :: t
    | [] => [[c]]

/-- A whitespace character as Python `str.strip` treats the common cases. -/
def isWSp (c : Char) : Bool :=
  c = ' ' || c = '\t' || c = '\n' || c = '\r'

/-- Python `s.strip()`: drop whitespace from both ends. -/
def trimL (l : Str) : Str :=
  ((l.dropWhile isWSp).reverse.dropWhile isWSp).reverse

/-- One dot-free identifier component: `[_a-zA-Z][_a-zA-Z0-9]*`. -/
def subIdOk : Str → Bool
  | [] => false
  | c :: cs => (c.isAlpha || c = '_') && cs.all (fun d => d.isAlphanum || d = '_')

/-- The dotted-identifier grammar of `GraphLayer.ParseSignature`
(builder_layers.py line 571): the regex
`[_a-zA-Z][_a-zA-Z0-9]*(\.[_a-zA-Z][_a-zA-Z0-9]*)*$`, equivalently every
`.`-separated component is a valid identifier. -/
def dottedIdOk (s : Str) : Bool :=
  (splitOnChar '.' s).all subIdOk

/-- Embeds `GraphLayer.ParseSignature` (builder_layers.py lines 562-576): asserts the
signature splits on `->` into exactly two sides, splits each side on commas,
strips each name, and asserts every name matches the dotted-identifier
grammar. -/
def ParseSignature (s : Str) : Option (List Str × List Str) :=
  match splitArrow s with
  | [i, o] =>
    if ((splitOnChar ',' i).map trimL).all dottedIdOk
        && ((splitOnChar ',' o).map trimL).all dottedIdOk then
      some ((splitOnChar ',' i).map trimL, (splitOnChar ',' o).map trimL)
    else none
  | _ => none

/-- A value in the graph composer's named-tensor namespace: a tensor (`leaf`),
a Python tuple accidentally stored whole under a single output name (`tup`),
or a nested `NestedMap` (`node`). -/
inductive NT where
  | leaf (t : T)
  | tup (ts : List NT)
  | node (m : List (Str × NT))

/-- The named-tensor namespace: a `NestedMap` from name component to value. -/
abbrev NTMap := List (Str × NT)

/-- Dictionary lookup `n in named_tensors` / `named_tensors[n]`. -/
def lookupNT : NTMap → Str → Option NT
  | [], _ => none
  | (k, v) :: rest, n => if k = n then some v else lookupNT rest n

/-- In-place update of the value stored under an existing key (the effect of
mutating a sub-`NestedMap` obtained from the parent). -/
def replaceNT : NTMap → Str → NT → NTMap
  | [], _, _ => []
  | (k, v) :: rest, n, x =>
    if k = n then (k, x) :: rest else (k, v) :: replaceNT rest n x

/-- Embeds `GraphLayer.AddNamedTensor` (builder_layers.py lines 538-549) on an
already-split path: walk the components, creating empty sub-maps for missing
intermediate components, and insert the value at the final component —
asserting (`none`) if the final component already exists, or if the walk
descends into a non-map value. -/
def addNamedL : List Str → NT → NTMap → Option NTMap
  | [], _, _ => none
  | [n], t, m =>
    if (lookupNT m n).isSome then none else some (m ++ [(n, t)])
  | n :: n2 :: rest, t, m =>
    match lookupNT m n with
    | none =>
      (addNamedL (n2 :: rest) t []).map (fun sub => m ++ [(n, NT.node sub)])
    | some (NT.node sub) =>
      (addNamedL (n2 :: rest) t sub).map
        (fun sub2 => replaceNT m n (NT.node sub2))
    | some _ => none

/-- The walk of `GraphLayer.GetNamedTensor` (builder_layers.py lines 551-560):
descend component by component, asserting (`none`) that every intermediate
value is a `NestedMap` and every component exists; returns whatever value sits
at the end of the path (tensor or sub-map). -/
def getNT : NT → List Str → Option NT
  | t, [] => some t
  | NT.node m, n :: rest =>
    match lookupNT m n with
    | some v => getNT v rest
    | none => none
  | _, _ :: _ => none

/-- Embeds `GetNamedTensor` from the top-level namespace, on an already-split path. -/
def getNamedL (m : NTMap) (p : List Str) : Option NT :=
  getNT (NT.node m) p

/-- Embeds `path.strip().split('.')` as performed by both `AddNamedTensor` and
`GetNamedTensor` (builder_layers.py lines 541, 554); never empty. -/
def pathOf (s : Str) : List Str :=
  splitOnChar '.' (trimL s)

/-- Embeds `GraphLayer.AddNamedTensor` on a raw dotted path string. -/
def AddNamedTensor (path : Str) (t : NT) (m : NTMap) : Option NTMap :=
  addNamedL (pathOf path) t m

/-- Embeds `GraphLayer.GetNamedTensor` on a raw dotted path string. -/
def GetNamedTensor (m : NTMap) (path : Str) : Option NT :=
  getNamedL m (pathOf path)

/-- Python `'%02d' % i`: decimal digits, zero-padded to width two. -/
def fmt02 (i : Nat) : Str :=
  if i < 10 then '0' :: Nat.toDigits 10 i else Nat.toDigits 10 i

/-- The default child-name computation of `GraphLayer.__init__`
(builder_layers.py lines 531-534): an explicitly named sub-layer keeps its
name; otherwise the name is `'%s_%02d' % (signature.split('->')[1].split(',')[0], i)`,
which raises (`none`) when the signature has no `->`. -/
def childName (sig subName : Str) (i : Nat) : Option Str :=
  if subName ≠ [] then some subName
  else
    match splitArrow sig with
    | _ :: second :: _ =>
      some ((splitOnChar ',' second).headD [] ++ '_' :: fmt02 i)
    | _ => none

/-- The parameters of a `GraphLayer` (builder_layers.py lines 512-519):
input/output endpoint names and the list of (signature, sub-layer name)
pairs. -/
structure GraphCfg where
  name : Str
  input_endpoints : List Str
  output_endpoints : List Str
  sub : List (Str × Str)

/-- The loop of `GraphLayer.__init__` over `p.sub` (builder_layers.py lines
529-536): asserts each signature is non-empty and computes each child's name;
performs no signature-syntax or endpoint-name validation. -/
def graphInitSubs : Nat → List (Str × Str) → Option (List Str)
  | _, [] => some []
  | i, (sig, sn) :: rest =>
    if sig = [] then none
    else
      match childName sig sn i with
      | none => none
      | some n =>
        match graphInitSubs (i + 1) rest with
        | none => none
        | some ns => some (n :: ns)

/-- Embeds `GraphLayer.__init__` (builder_layers.py lines 521-536): asserts a
non-empty layer name and non-empty input endpoint list, then registers the
sub-layers; returns the created child names. -/
def graphInit (cfg : GraphCfg) : Option (List Str) :=
  if cfg.name = [] then none
  else if cfg.input_endpoints = [] then none
  else graphInitSubs 0 cfg.sub

mutual
/-- The input type check of `GraphLayer.FProp` (builder_layers.py lines
585-588): each seeded input is a single tensor or a `NestedMap` whose values
are all tensors. -/
def ntOk : NT → Bool
  | .leaf _ => true
  | .tup _ => false
  | .node m => ntOkL m
/-- Embeds `ntOk` over the entries of a `NestedMap`. -/
def ntOkL : List (Str × NT) → Bool
  | [] => true
  | (_, v) :: rest => ntOk v && ntOkL rest
end

/-- The seeding loop of `GraphLayer.FProp` (builder_layers.py lines 584-589):
writes each top-level input under its declared endpoint name. -/
def seedInputs : List (Str × NT) → NTMap → Option NTMap
  | [], m => some m
  | (n, t) :: rest, m =>
    if ntOk t then
      match AddNamedTensor n t m with
      | none => none
      | some m2 => seedInputs rest m2
    else none

/-- The output-tuple normalization of `GraphLayer.FProp` (builder_layers.py
lines 601-604): with a single declared output name the raw return value is
wrapped whole (`ch_out = (ch_out,)`); otherwise the return value must be a
tuple whose length equals the number of declared output names (`len` of a
bare tensor raises, i.e. `none`). -/
def wrapOut (numOut : Nat) (out : FOut NT) : Option (List NT) :=
  if numOut = 1 then
    some [match out with | .one t => t | .many ts => NT.tup ts]
  else
    match out with
    | .many ts => if ts.length = numOut then some ts else none
    | .one _ => none

/-- The output-writing loop of `GraphLayer.FProp` (builder_layers.py lines
605-606): write each produced value under its signature output name. -/
def writeOuts : List (Str × NT) → NTMap → Option NTMap
  | [], m => some m
  | (n, t) :: rest, m =>
    match AddNamedTensor n t m with
    | none => none
    | some m2 => writeOuts rest m2

/-- One iteration of the sub-layer loop of `GraphLayer.FProp`
(builder_layers.py lines 592-606): parse the signature, resolve every input
name from the namespace, invoke the child's forward on the resolved inputs,
and write its outputs under the signature's output names. -/
def graphStep (ch : List NT → Option (FOut NT)) (sig : Str) (m : NTMap) :
    Option NTMap :=
  match ParseSignature sig with
  | none => none
  | some (its, ots) =>
    match mapOption (fun x => GetNamedTensor m x) its with
    | none => none
    | some ins =>
      match ch ins with
      | none => none
      | some out =>
        match wrapOut ots.length out with
        | none => none
        | some outs => writeOuts (ots.zip outs) m

/-- The sub-layer loop of `GraphLayer.FProp`, threading the namespace. -/
def runSteps : List (Str × (List NT → Option (FOut NT))) → NTMap → Option NTMap
  | [], m => some m
  | (sig, ch) :: rest, m =>
    match graphStep ch sig m with
    | none => none
    | some m2 => runSteps rest m2

/-- Embeds `GraphLayer.FProp` (builder_layers.py lines 578-614): asserts the input
arity matches the declared input endpoints, seeds the namespace, runs every
sub-layer in declaration order, and reads the declared output endpoints —
unwrapped to a bare value when there is exactly one.  (`FPropMeta`, lines
616-643, performs the identical namespace walk on shape descriptors.) -/
def graphFProp (cfg : GraphCfg) (chs : List (List NT → Option (FOut NT)))
    (args : List NT) : Option (FOut NT) :=
  if cfg.input_endpoints.length = args.length then
    match seedInputs (cfg.input_endpoints.zip args) [] with
    | none => none
    | some m0 =>
      match runSteps ((cfg.sub.map Prod.fst).zip chs) m0 with
      | none => none
      | some mF =>
        match mapOption (fun x => GetNamedTensor mF x) cfg.output_endpoints with
        | none => none
        | some outs =>
          some (match outs with | [t] => .one t | ts => .many ts)
  else none

theorem lookupNT_append_self (m : NTMap) (n : Str) (v : NT)
    (h : lookupNT m n = none) : lookupNT (m ++ [(n, v)]) n = some v := by
  induction m with
  | nil => simp [lookupNT]
  | cons kv rest ih =>
    obtain ⟨k, w⟩ := kv
    by_cases hk : k = n
    · simp [lookupNT, hk] at h
    · simp only [lookupNT, if_neg hk] at h
      simp only [List.cons_append, lookupNT, if_neg hk]
      exact ih h

theorem lookupNT_replace_self (m : NTMap) (n : Str) (x v : NT)
    (h : lookupNT m n = some v) : lookupNT (replaceNT m n x) n = some x := by
  induction m with
  | nil => simp [lookupNT] at h
  | cons kv rest ih =>
    obtain ⟨k, w⟩ := kv
    by_cases hk : k = n
    · simp [lookupNT, replaceNT, hk]
    · simp only [lookupNT, if_neg hk] at h
      simp only [replaceNT, if_neg hk, lookupNT]
      exact ih h

theorem getNamed_isSome_add_none : ∀ (p : List Str) (m : NTMap) (v t : NT),
    getNamedL m p = some v → addNamedL p t m = none := by
  intro p
  induction p with
  | nil => intro m v t _; rfl
  | cons n rest ih =>
    intro m v t hget
    cases rest with
    | nil =>
      cases hl : lookupNT m n with
      | none =>
        simp only [getNamedL, getNT, hl] at hget
        cases hget
      | some w => simp [addNamedL, hl]
    | cons n2 rest2 =>
      cases hl : lookupNT m n with
      | none =>
        simp only [getNamedL, getNT, hl] at hget
        cases hget
      | some w =>
        simp only [getNamedL, getNT, hl] at hget
        cases w with
        | leaf x => simp [getNT] at hget
        | tup ts => simp [getNT] at hget
        | node sub =>
          have hred : addNamedL (n :: n2 :: rest2) t m
              = (addNamedL (n2 :: rest2) t sub).map
                  (fun sub2 => replaceNT m n (NT.node sub2)) := by
            rw [addNamedL, hl]
          have hsub : getNamedL sub (n2 :: rest2) = some v := hget
          rw [hred, ih sub v t hsub]
          rfl

theorem addNamed_some_get : ∀ (p : List Str) (m m2 : NTMap) (t : NT),
    addNamedL p t m = some m2 → getNamedL m2 p = some t := by
  intro p
  induction p with
  | nil => intro m m2 t h; cases h
  | cons n rest ih =>
    intro m m2 t h
    cases rest with
    | nil =>
      cases hl : lookupNT m n with
      | some w => simp only [addNamedL, hl] at h; simp at h
      | none =>
        simp only [addNamedL, hl] at h
        simp at h
        subst h
        simp [getNamedL, getNT, lookupNT_append_self m n t hl]
    | cons n2 rest2 =>
      cases hl : lookupNT m n with
      | none =>
        have hred : addNamedL (n :: n2 :: rest2) t m
            = (addNamedL (n2 :: rest2) t []).map
                (fun sub => m ++ [(n, NT.node sub)]) := by
          rw [addNamedL, hl]
        rw [hred] at h
        cases hs : addNamedL (n2 :: rest2) t [] with
        | none => rw [hs] at h; cases h
        | some sub =>
          rw [hs] at h
          simp at h
          subst h
          have hlook : lookupNT (m ++ [(n, NT.node sub)]) n
              = some (NT.node sub) := lookupNT_append_self m n _ hl
          simp only [getNamedL, getNT, hlook]
          exact ih [] sub t hs
      | some w =>
        cases w with
        | leaf x =>
          have hred : addNamedL (n :: n2 :: rest2) t m = none := by
            rw [addNamedL, hl]
          rw [hred] at h
          cases h
        | tup ts =>
          have hred : addNamedL (n :: n2 :: rest2) t m = none := by
            rw [addNamedL, hl]
          rw [hred] at h
          cases h
        | node sub =>
          have hred : addNamedL (n :: n2 :: rest2) t m
              = (addNamedL (n2 :: rest2) t sub).map
                  (fun sub2 => replaceNT m n (NT.node sub2)) := by
            rw [addNamedL, hl]
          rw [hred] at h
          cases hs : addNamedL (n2 :: rest2) t sub with
          | none => rw [hs] at h; cases h
          | some sub2 =>
            rw [hs] at h
            simp at h
            subst h
            have hlook : lookupNT (replaceNT m n (NT.node sub2)) n
                = some (NT.node sub2) := lookupNT_replace_self m n _ _ hl
            simp only [getNamedL, getNT, hlook]
            exact ih sub sub2 t hs

/-- C1: the namespace invariants of the Graph composer, for both `FProp` and
`FPropMeta` (they thread `AddNamedTensor`/`GetNamedTensor` identically and
every failure aborts the run): (1) a dotted name that already resolves cannot
be written again — `AddNamedTensor` fails, before any further computation,
whenever the name already exists; (2) a successful write implies the name was
previously unresolved and is resolved to the written value afterwards; (3)
resolving a signature's input names fails outright when any required name is
unresolved. -/
theorem graph_namespace_write_once_read_resolved (p : List Str) (hp : p ≠ []) :
    (∀ (m : NTMap) (v t : NT), getNamedL m p = some v → addNamedL p t m = none)
  ∧ (∀ (m m2 : NTMap) (t : NT), addNamedL p t m = some m2 →
      getNamedL m p = none ∧ getNamedL m2 p = some t)
  ∧ (∀ (m : NTMap) (paths : List (List Str)), p ∈ paths →
      getNamedL m p = none → mapOption (getNamedL m) paths = none) := by
  refine ⟨fun m v t h => getNamed_isSome_add_none p m v t h, ?_, ?_⟩
  · intro m m2 t hadd
    refine ⟨?_, addNamed_some_get p m m2 t hadd⟩
    cases hg : getNamedL m p with
    | none => rfl
    | some v =>
      rw [getNamed_isSome_add_none p m v t hg] at hadd
      cases hadd
  · intro m paths hmem hnone
    exact mapOption_none _ paths p hmem hnone

/-- Witness for C1 at concrete namespaces: rewriting an existing name fails;
a fresh write was unresolved before and resolves afterwards; resolving a
read list containing an unresolved name fails. -/
theorem graph_namespace_write_once_read_resolved_witness :
    addNamedL [['a']] (NT.leaf (T.s 1)) [(['a'], NT.leaf (T.s 0))] = none
  ∧ (getNamedL [] [['a']] = none
      ∧ getNamedL [(['a'], NT.leaf (T.s 1))] [['a']] = some (NT.leaf (T.s 1)))
  ∧ mapOption (getNamedL []) [[['a']]] = none := by
  have h := graph_namespace_write_once_read_resolved [['a']] (by decide)
  exact ⟨h.1 [(['a'], NT.leaf (T.s 0))] (NT.leaf (T.s 0)) (NT.leaf (T.s 1)) rfl,
         h.2.1 [] [(['a'], NT.leaf (T.s 1))] (NT.leaf (T.s 1)) rfl,
         h.2.2 [] [[['a']]] (List.mem_singleton.mpr rfl) rfl⟩

/-- A `GraphLayer` configuration whose only sub-layer carries the
syntactically invalid signature `a->b->c` (two `->` separators) but a
non-empty explicit name. -/
def cfgBad : GraphCfg :=
  ⟨['g'], [['a']], [['b']], [(['a', '-', '>', 'b', '-', '>', 'c'], ['s'])]⟩

/-- A trivial child forward returning one constant tensor. -/
def chTriv : List NT → Option (FOut NT) :=
  fun _ => some (.one (NT.leaf (T.s 0)))

/-- C5 (counterexample): a configuration with the malformed signature
`a->b->c` is accepted at module-construction time — `GraphLayer.__init__`
only checks non-emptiness and never calls `ParseSignature` — and the
signature is only rejected later, inside the forward (or `FPropMeta`) walk.
This refutes the claim that invalid signature syntax is detected and rejected
at construction, before any forward or inferShapes call. -/
theorem graph_bad_signature_accepted_at_construction :
    graphInit cfgBad = some [['s']]
  ∧ ParseSignature ['a', '-', '>', 'b', '-', '>', 'c'] = none
  ∧ graphFProp cfgBad [chTriv] [NT.leaf (T.s 0)] = none :=
  ⟨rfl, rfl, rfl⟩

theorem childName_named (sig sn : Str) (i : Nat) (h : sn ≠ []) :
    childName sig sn i = some sn := by
  unfold childName
  rw [if_pos h]

theorem graphInitSubs_isSome : ∀ (subs : List (Str × Str)) (i : Nat),
    (∀ q ∈ subs, q.1 ≠ [] ∧ q.2 ≠ []) →
    (graphInitSubs i subs).isSome = true := by
  intro subs
  induction subs with
  | nil => intro i _; rfl
  | cons q rest ih =>
    intro i h
    obtain ⟨sig, sn⟩ := q
    obtain ⟨hsig, hsn⟩ := h (sig, sn) (List.mem_cons_self _ _)
    have hrest := ih (i + 1) (fun q hq => h q (List.mem_cons_of_mem _ hq))
    unfold graphInitSubs
    rw [if_neg hsig, childName_named sig sn i hsn]
    cases hr : graphInitSubs (i + 1) rest with
    | none => rw [hr] at hrest; simp at hrest
    | some ns => rfl

/-- C5 (amended): signature validation happens when `ParseSignature` runs —
inside every forward / `FPropMeta` walk, not at construction: a signature
without exactly one `->` separator fails to parse; a signature that parses
has every (stripped) name on both sides matching the dotted-identifier
grammar (an empty side yields the empty name, which fails the grammar); a
sub-layer step fails immediately when its signature does not parse; and
construction succeeds for any configuration whose layer name, input endpoint
list, signatures and sub-layer names are merely non-empty — no syntax is
checked there, and declared endpoint names are never syntax-checked at
all. -/
theorem graph_signature_validation_at_call_time :
    (∀ s : Str, (splitArrow s).length ≠ 2 → ParseSignature s = none)
  ∧ (∀ (s : Str) (its ots : List Str), ParseSignature s = some (its, ots) →
      (∀ x ∈ its, dottedIdOk x = true) ∧ (∀ x ∈ ots, dottedIdOk x = true))
  ∧ (∀ (ch : List NT → Option (FOut NT)) (sig : Str) (m : NTMap),
      ParseSignature sig = none → graphStep ch sig m = none)
  ∧ (∀ cfg : GraphCfg, cfg.name ≠ [] → cfg.input_endpoints ≠ [] →
      (∀ q ∈ cfg.sub, q.1 ≠ [] ∧ q.2 ≠ []) →
      (graphInit cfg).isSome = true) := by
  refine ⟨?_, ?_, ?_, ?_⟩
  · intro s hlen
    unfold ParseSignature
    split
    next i o heq => exact absurd (by rw [heq] : splitArrow s = [i, o]) (by
      intro hcon
      exact hlen (by rw [hcon]; rfl))
    next => rfl
  · intro s its ots h
    unfold ParseSignature at h
    split at h
    next i o heq =>
      split at h
      next hc =>
        injection h with h1
        obtain ⟨rfl, rfl⟩ := Prod.mk.injEq .. ▸ Prod.mk.inj h1
        simp only [Bool.and_eq_true, List.all_eq_true] at hc
        exact hc
      next hc => cases h
    next heq => cases h
  · intro ch sig m hps
    unfold graphStep
    rw [hps]
  · intro cfg hname hine hsubs
    unfold graphInit
    rw [if_neg hname, if_neg hine]
    exact graphInitSubs_isSome cfg.sub 0 hsubs

/-- Witness for the amended C5 at concrete inputs: the arrow-less signature
`a` fails to parse and fails a forward step; the well-formed `a->b` parses to
grammar-valid names; and the malformed-signature configuration `cfgBad`
constructs successfully. -/
theorem graph_signature_validation_at_call_time_witness :
    ParseSignature ['a'] = none
  ∧ ((∀ x ∈ [['a']], dottedIdOk x = true) ∧ (∀ x ∈ [['b']], dottedIdOk x = true))
  ∧ graphStep chTriv ['a'] [] = none
  ∧ (graphInit cfgBad).isSome = true := by
  have h := graph_signature_validation_at_call_time
  exact ⟨h.1 ['a'] (by decide),
         h.2.1 ['a', '-', '>', 'b'] [['a']] [['b']] rfl,
         h.2.2.1 chTriv ['a'] [] (h.1 ['a'] (by decide)),
         h.2.2.2 cfgBad (by decide) (by decide) (by decide)⟩

/-- Embeds `_CellFn` of `RepeatLayer.FProp` (builder_layers.py lines 153-170), one
iteration of the scan: the carried state is the list of per-position optional
tensors (`_ArgsToState` drops `None` entries and `_StateToArgs` restores them
over `range(len(args))`, so their round trip is the identity on a
length-`len(args)` optional list); the body's forward runs on the carried
state with the iteration's parameter slice, its result is normalized by
`_ToTuple`, and `assert len(frop_outputs) == len(frop_inputs)` fails the call
unless the output arity equals the composer's input arity. -/
def RepeatCell {Th : Type} (numArgs : Nat)
    (bodyF : Th → List (Option T) → FOut (Option T)) (thi : Th)
    (st : List (Option T)) : Option (List (Option T)) :=
  if (foutList (bodyF thi st)).length = numArgs
  then some (foutList (bodyF thi st)) else none

/-- The `recurrent.Recurrent` scan of `RepeatLayer.FProp` (builder_layers.py
lines 176-180): iterate the cell over the `repeat` leading-axis slices of the
stacked parameters, threading the carried state; any cell failure aborts. -/
def foldCells {Th : Type} (numArgs : Nat)
    (bodyF : Th → List (Option T) → FOut (Option T)) :
    List Th → List (Option T) → Option (List (Option T))
  | [], st => some st
  | thi :: rest, st =>
    match RepeatCell numArgs bodyF thi st with
    | none => none
    | some st2 => foldCells numArgs bodyF rest st2

/-- Embeds `RepeatLayer.FProp` (builder_layers.py lines 128-184): seed the carried
state with the input arguments, scan the body over the parameter slices, and
return the final carried state — `output_tensors[0]` as a bare value when the
composer received exactly one input argument, a tuple otherwise. -/
def RepeatFProp {Th : Type} (bodyF : Th → List (Option T) → FOut (Option T))
    (thetas : List Th) (args : List (Option T)) : Option (FOut (Option T)) :=
  match foldCells args.length bodyF thetas args with
  | none => none
  | some final =>
    some (if args.length = 1 then .one (final.headD none) else .many final)

theorem foldCells_length {Th : Type} (numArgs : Nat)
    (bodyF : Th → List (Option T) → FOut (Option T)) :
    ∀ (thetas : List Th) (st st2 : List (Option T)), st.length = numArgs →
    foldCells numArgs bodyF thetas st = some st2 → st2.length = numArgs := by
  intro thetas
  induction thetas with
  | nil =>
    intro st st2 hlen h
    injection h with h1
    subst h1
    exact hlen
  | cons thi rest ih =>
    intro st st2 hlen h
    unfold foldCells at h
    cases hc : RepeatCell numArgs bodyF thi st with
    | none => rw [hc] at h; cases h
    | some stm =>
      rw [hc] at h
      have hm : stm.length = numArgs := by
        unfold RepeatCell at hc
        by_cases hl : (foutList (bodyF thi st)).length = numArgs
        · rw [if_pos hl] at hc
          injection hc with hc1
          subst hc1
          exact hl
        · rw [if_neg hl] at hc; cases hc
      exact ih stm st2 hm h

/-- C10: `Repeat`'s forward pass requires the body to preserve arity — any
iteration whose body output tuple does not have exactly as many elements as
the composer's input argument list fails (`RepeatCell` returns `none`, which
aborts the scan) — and a successful run returns a state of the input arity,
unwrapped to a bare value exactly when the composer was called with a single
input argument. -/
theorem repeat_fprop_arity {Th : Type}
    (bodyF : Th → List (Option T) → FOut (Option T)) (thetas : List Th)
    (args : List (Option T)) :
    (∀ (thi : Th) (st : List (Option T)),
        (foutList (bodyF thi st)).length ≠ args.length →
        RepeatCell args.length bodyF thi st = none)
  ∧ (∀ out, RepeatFProp bodyF thetas args = some out →
      (foutList out).length = args.length
      ∧ ((∃ t0, out = .one t0) ↔ args.length = 1)) := by
  constructor
  · intro thi st hne
    unfold RepeatCell
    rw [if_neg hne]
  · intro out hout
    unfold RepeatFProp at hout
    cases hf : foldCells args.length bodyF thetas args with
    | none => rw [hf] at hout; cases hout
    | some final =>
      rw [hf] at hout
      injection hout with hout1
      have hlen := foldCells_length args.length bodyF thetas args final rfl hf
      by_cases h1 : args.length = 1
      · rw [if_pos h1] at hout1
        subst hout1
        refine ⟨by simp [foutList, h1], ?_⟩
        exact ⟨fun _ => h1, fun _ => ⟨final.headD none, rfl⟩⟩
      · rw [if_neg h1] at hout1
        subst hout1
        refine ⟨by simpa [foutList] using hlen, ?_⟩
        constructor
        · rintro ⟨t0, ht⟩
          cases ht
        · intro hc
          exact absurd hc h1

/-- Witness for C10: an arity-violating body (empty output tuple against one
input) fails its iteration, and an identity body over one input yields a
bare-value result of matching arity. -/
theorem repeat_fprop_arity_witness :
    RepeatCell 1 (fun (_ : Unit) _ => FOut.many []) () [some (T.s 0)] = none
  ∧ ((foutList (FOut.one (some (T.s 0)))).length = 1
      ∧ ((∃ t0, (FOut.one (some (T.s 0)) : FOut (Option T)) = .one t0)
          ↔ 1 = 1)) := by
  refine ⟨?_, ?_⟩
  · exact (repeat_fprop_arity (fun (_ : Unit) _ => FOut.many []) []
      [some (T.s 0)]).1 () [some (T.s 0)] (by decide)
  · exact (repeat_fprop_arity (fun (_ : Unit) st => FOut.many st) [()]
      [some (T.s 0)]).2 (FOut.one (some (T.s 0))) rfl

end LingvoBuilder
